import Mathlib

/-!
Verification development for the RF103 repository.

The development shallowly embeds the two core C source files:

* `usb_device.c` — the FX3 firmware loader (`validate_image`,
  `transfer_image`); byte buffers are `List Nat` (each entry a byte),
  32-bit little-endian words are read with `wordAt`, and all `uint32_t`
  arithmetic is performed in `Nat` with explicit reduction modulo `2^32`.
* `adc.c` — the ADC streaming engine (`adc_open_async`, `adc_start`,
  `adc_stop`) and the transfer-completion dispatcher
  (`adc_read_async_callback`); the engine record is a small state
  structure, the atomic in-flight counter is an `Int`, and the outcomes
  of the external USB operations (submit, cancel, control transfers) are
  supplied by explicit oracle arguments.

Out-of-bounds reads, which are undefined behaviour in the C source, are
made observable: every word read is an `Option`, and a failed read
surfaces as the distinguished `oob` outcome.  Loops whose iteration
count is data-dependent are driven by an explicit fuel argument; fuel
exhaustion surfaces as the distinguished `fuelOut` outcome and is proved
unreachable where needed.
-/

namespace RF103

/-! ### Byte buffers and little-endian 32-bit words -/

/-- Little-endian byte encoding of one 32-bit word (as in the FX3 image
format: the C code reads the buffer through a `uint32_t` pointer). -/
def le32 (w : Nat) : List Nat :=
  [w % 256, w / 256 % 256, w / 65536 % 256, w / 16777216 % 256]

/-- Read the 32-bit little-endian word starting at byte offset `p`;
`none` when the 4-byte read would leave the buffer. -/
def wordAt (bs : List Nat) (p : Nat) : Option Nat :=
  if p + 4 ≤ bs.length then
    some (bs.getD p 0 + 256 * bs.getD (p+1) 0 + 65536 * bs.getD (p+2) 0 +
          16777216 * bs.getD (p+3) 0)
  else none

/-- Sum of `n` consecutive 32-bit words starting at byte offset `p`
(the inner `while (loadSz--) checksum += *current++;` loop of
`validate_image`); `none` if any read would leave the buffer. -/
def sumWords (bs : List Nat) : Nat → Nat → Option Nat
  | _, 0 => some 0
  | p, n+1 =>
    match wordAt bs p, sumWords bs (p+4) (n) with
    | some w, some s => some (w + s)
    | _, _ => none

@[simp] theorem le32_length (w : Nat) : (le32 w).length = 4 := by
  simp [le32]

theorem getD_append_right_add (A l : List Nat) (i : Nat) (d : Nat) :
    (A ++ l).getD (A.length + i) d = l.getD i d := by
  rw [List.getD_append_right]
  · simp
  · omega

/-- Reading a word at the boundary of a prefix recovers the encoded word
modulo `2^32`. -/
theorem wordAt_append (A B : List Nat) (w : Nat) :
    wordAt (A ++ (le32 w ++ B)) A.length = some (w % 4294967296) := by
  have h0 := getD_append_right_add A (le32 w ++ B) 0 0
  have h1 := getD_append_right_add A (le32 w ++ B) 1 0
  have h2 := getD_append_right_add A (le32 w ++ B) 2 0
  have h3 := getD_append_right_add A (le32 w ++ B) 3 0
  simp only [Nat.add_zero] at h0
  unfold wordAt
  rw [if_pos (by simp)]
  rw [h0]
  rw [show A.length + 1 = A.length + 1 from rfl, h1, h2, h3]
  simp only [le32, List.cons_append, List.getD_cons_zero, List.getD_cons_succ]
  congr 1
  omega

/-- Reading a word strictly inside a long-enough suffix is independent of
what follows. -/
theorem wordAt_nil_ok (A : List Nat) (w : Nat) :
    wordAt (A ++ le32 w) A.length = some (w % 4294967296) := by
  have := wordAt_append A [] w
  simpa using this

/-! ### Firmware image validation (`usb_device.c`, `validate_image`) -/

/-- Distinct failure paths of `validate_image` (the C function returns
`-1` on each; the constructors record which check rejected).  `oob`
marks a word read past the end of the buffer (undefined behaviour in
C); `fuelOut` marks exhaustion of the explicit loop fuel. -/
inductive ImageError
  | tooSmall
  | badMagic
  | badConfig
  | badType
  | sectionTooLarge
  | checksumMismatch
  | oob
  | fuelOut
deriving DecidableEq, Repr

/-- The section-list walk of `validate_image`: starting at byte offset
`pos` with running checksum `cs`, read `loadSz`; a zero `loadSz`
terminates the walk, otherwise skip the section start address, reject
with `sectionTooLarge` when the declared data would reach past
`end - 2` words (`current + loadSz >= end - 2` in the source, i.e.
`pos + 8 + 4*loadSz ≥ size - 8` in bytes), and otherwise accumulate the
section's words into the running 32-bit checksum.  On success, returns
the byte offset just past the terminating zero word together with the
accumulated checksum. -/
def sectionWalk (bs : List Nat) : Nat → Nat → Nat → Except ImageError (Nat × Nat)
  | 0, _, _ => .error .fuelOut
  | fuel+1, pos, cs =>
    match wordAt bs pos with
    | none => .error .oob
    | some loadSz =>
      if loadSz = 0 then .ok (pos + 4, cs)
      else
        match wordAt bs (pos + 4) with
        | none => .error .oob
        | some _secStart =>
          if bs.length - 8 ≤ pos + 8 + 4 * loadSz then .error .sectionTooLarge
          else
            match sumWords bs (pos + 8) loadSz with
            | none => .error .oob
            | some s => sectionWalk bs fuel (pos + 8 + 4 * loadSz) ((cs + s) % 4294967296)

/-- Shallow embedding of `validate_image` (usb_device.c:414-465): size
check, `CY` magic, I2C-config byte `0x1C`, image-type byte `0xB0`,
section walk with running word-sum, then the trailing entry-address and
checksum words.  The "image file longer than expected" case is a
warning only in the source and has no effect on the result. -/
def validate_image (bs : List Nat) : Except ImageError Unit :=
  if bs.length < 10240 then .error .tooSmall
  else if ¬ (bs.getD 0 0 = 67 ∧ bs.getD 1 0 = 89) then .error .badMagic
  else if ¬ (bs.getD 2 0 = 28) then .error .badConfig
  else if ¬ (bs.getD 3 0 = 176) then .error .badType
  else
    match sectionWalk bs bs.length 4 0 with
    | .error e => .error e
    | .ok (pos, cs) =>
      match wordAt bs pos, wordAt bs (pos + 4) with
      | some _entryAddr, some expected =>
        if cs = expected then .ok () else .error .checksumMismatch
      | _, _ => .error .oob

/-! ### Structural description of the firmware image format

`mkImage` builds the byte image of the documented FX3 format: a 4-byte
header (`CY`, I2C-config `0x1C`, type `0xB0`), a sequence of sections
(each a 32-bit word count, a 32-bit start address and the data words),
a terminating zero word, the entry address, the checksum word and
arbitrary trailing padding.  It is the structural counterpart against
which the byte-level walks of `validate_image` and `transfer_image` are
proved. -/

/-- Little-endian encoding of a list of 32-bit words. -/
def encWords : List Nat → List Nat
  | [] => []
  | w :: ws => le32 w ++ encWords ws

/-- Encoding of one section: word count, start address, data words. -/
def encSection (s : Nat × List Nat) : List Nat :=
  le32 s.2.length ++ (le32 s.1 ++ encWords s.2)

/-- Encoding of a section list. -/
def encSections : List (Nat × List Nat) → List Nat
  | [] => []
  | s :: ss => encSection s ++ encSections ss

/-- The fixed 4-byte image header: `C`, `Y`, `0x1C`, `0xB0`. -/
def fwHeader : List Nat := [67, 89, 28, 176]

/-- A complete firmware image in the documented format. -/
def mkImage (secs : List (Nat × List Nat)) (entry chk : Nat) (pad : List Nat) : List Nat :=
  fwHeader ++ (encSections secs ++ (le32 0 ++ (le32 entry ++ (le32 chk ++ pad))))

/-- Word-sum (modulo 2^32) of one section's data. -/
def secSum (d : List Nat) : Nat := (d.map (fun w => w % 4294967296)).sum

/-- Word-sum (modulo 2^32) of all data words of all sections. -/
def sumData : List (Nat × List Nat) → Nat
  | [] => 0
  | s :: ss => secSum s.2 + sumData ss

@[simp] theorem encWords_length (d : List Nat) : (encWords d).length = 4 * d.length := by
  induction d with
  | nil => simp [encWords]
  | cons w ws ih => simp [encWords, ih]; omega

@[simp] theorem encSection_length (s : Nat × List Nat) :
    (encSection s).length = 8 + 4 * s.2.length := by
  simp [encSection]; omega

theorem encSections_length (ss : List (Nat × List Nat)) :
    (encSections ss).length = (ss.map (fun s => 8 + 4 * s.2.length)).sum := by
  induction ss with
  | nil => simp [encSections]
  | cons s ss ih => simp [encSections, ih]

theorem encSections_length_ge (ss : List (Nat × List Nat))
    (h : ∀ s ∈ ss, s.2 ≠ []) : 12 * ss.length ≤ (encSections ss).length := by
  induction ss with
  | nil => simp
  | cons s ss ih =>
    have hs : s.2 ≠ [] := h s (by simp)
    have h1 : 1 ≤ s.2.length := List.length_pos.2 hs
    have := ih (fun t ht => h t (by simp [ht]))
    simp [encSections]
    omega

/-- Summing the words of an encoded data block recovers its 32-bit
word-sum. -/
theorem sumWords_append (d : List Nat) : ∀ (A B : List Nat),
    sumWords (A ++ (encWords d ++ B)) A.length d.length = some (secSum d) := by
  induction d with
  | nil => intro A B; simp [sumWords, secSum]
  | cons w ws ih =>
    intro A B
    have hrw : A ++ (encWords (w :: ws) ++ B)
        = A ++ (le32 w ++ ((A ++ le32 w) ++ (encWords ws ++ B)).drop (A.length + 4)) := by
      simp [encWords, List.append_assoc]
    show sumWords (A ++ (encWords (w :: ws) ++ B)) A.length (ws.length + 1) = _
    have hassoc : A ++ (encWords (w :: ws) ++ B) = A ++ (le32 w ++ (encWords ws ++ B)) := by
      simp [encWords, List.append_assoc]
    rw [hassoc]
    have hw := wordAt_append A (encWords ws ++ B) w
    have hlen : A.length + 4 = (A ++ le32 w).length := by simp
    have hrest := ih (A ++ le32 w) B
    rw [List.append_assoc] at hrest
    unfold sumWords
    rw [hw, hlen, hrest]
    simp [secSum]

/-- The section walk stops at the terminating zero word. -/
theorem sectionWalk_term (A rest : List Nat) (fuel cs : Nat) :
    sectionWalk (A ++ (le32 0 ++ rest)) (fuel + 1) A.length cs = .ok (A.length + 4, cs) := by
  unfold sectionWalk
  rw [wordAt_append A rest 0]
  simp

/-- Walking an encoded section list accumulates the sections' word-sums
and advances to the end of the encoded sections, consuming one unit of
fuel per section.  `rest` must keep at least 9 bytes so that every
section passes the `end - 2` bound check. -/
theorem sectionWalk_append : ∀ (secs : List (Nat × List Nat)) (A rest : List Nat)
    (fuel cs : Nat),
    (∀ s ∈ secs, s.2 ≠ [] ∧ s.2.length < 4294967296) →
    secs.length ≤ fuel → 9 ≤ rest.length → cs < 4294967296 →
    sectionWalk (A ++ (encSections secs ++ rest)) fuel A.length cs
      = sectionWalk (A ++ (encSections secs ++ rest)) (fuel - secs.length)
          (A.length + (encSections secs).length) ((cs + sumData secs) % 4294967296) := by
  intro secs
  induction secs with
  | nil =>
    intro A rest fuel cs _ _ _ hcs
    simp [encSections, sumData, Nat.mod_eq_of_lt hcs]
  | cons s ss ih =>
    intro A rest fuel cs hsec hfuel hrest hcs
    obtain ⟨st, d⟩ := s
    have hd : d ≠ [] := (hsec (st, d) (by simp)).1
    have hdlen : d.length < 4294967296 := (hsec (st, d) (by simp)).2
    cases fuel with
    | zero => simp at hfuel
    | succ f =>
      have hassoc : A ++ (encSections ((st, d) :: ss) ++ rest)
          = A ++ (le32 d.length ++ (le32 st ++ (encWords d ++ (encSections ss ++ rest)))) := by
        simp [encSections, encSection, List.append_assoc]
      rw [hassoc]
      have hload : wordAt (A ++ (le32 d.length ++ (le32 st ++ (encWords d ++ (encSections ss ++ rest))))) A.length
          = some d.length := by
        rw [wordAt_append, Nat.mod_eq_of_lt hdlen]
      have h2 : A ++ (le32 d.length ++ (le32 st ++ (encWords d ++ (encSections ss ++ rest))))
          = (A ++ le32 d.length) ++ (le32 st ++ (encWords d ++ (encSections ss ++ rest))) := by
        simp [List.append_assoc]
      have hst : wordAt (A ++ (le32 d.length ++ (le32 st ++ (encWords d ++ (encSections ss ++ rest))))) (A.length + 4)
          = some (st % 4294967296) := by
        rw [h2]
        have := wordAt_append (A ++ le32 d.length) (encWords d ++ (encSections ss ++ rest)) st
        simpa using this
      have h3 : A ++ (le32 d.length ++ (le32 st ++ (encWords d ++ (encSections ss ++ rest))))
          = ((A ++ le32 d.length) ++ le32 st) ++ (encWords d ++ (encSections ss ++ rest)) := by
        simp [List.append_assoc]
      have hsum : sumWords (A ++ (le32 d.length ++ (le32 st ++ (encWords d ++ (encSections ss ++ rest))))) (A.length + 8) d.length
          = some (secSum d) := by
        rw [h3]
        have := sumWords_append d ((A ++ le32 d.length) ++ le32 st) (encSections ss ++ rest)
        simpa using this
      have hlentot : (A ++ (le32 d.length ++ (le32 st ++ (encWords d ++ (encSections ss ++ rest))))).length
          = A.length + (4 + (4 + (4 * d.length + ((encSections ss).length + rest.length)))) := by
        simp
      have hdne : ¬ (d.length = 0) := by
        simpa [List.length_eq_zero] using hd
      have hcheck : ¬ ((A ++ (le32 d.length ++ (le32 st ++ (encWords d ++ (encSections ss ++ rest))))).length - 8
          ≤ A.length + 8 + 4 * d.length) := by
        rw [hlentot]; omega
      simp only [sectionWalk, hload, hst, hsum]
      rw [if_neg hdne, if_neg hcheck]
      have h4 : A ++ (le32 d.length ++ (le32 st ++ (encWords d ++ (encSections ss ++ rest))))
          = (A ++ encSection (st, d)) ++ (encSections ss ++ rest) := by
        simp [encSection, List.append_assoc]
      have hlen4 : A.length + 8 + 4 * d.length = (A ++ encSection (st, d)).length := by
        simp; omega
      rw [h4, hlen4]
      have ihh := ih (A ++ encSection (st, d)) rest f ((cs + secSum d) % 4294967296)
        (fun t ht => hsec t (by simp [ht]))
        (by simp at hfuel; omega) hrest (Nat.mod_lt _ (by norm_num))
      rw [ihh]
      have e1 : f + 1 - ((st, d) :: ss).length = f - ss.length := by simp
      have e2 : (A ++ encSection (st, d)).length + (encSections ss).length
          = A.length + (encSections ((st, d) :: ss)).length := by
        simp [encSections]; omega
      have e3 : ((cs + secSum d) % 4294967296 + sumData ss) % 4294967296
          = (cs + sumData ((st, d) :: ss)) % 4294967296 := by
        show _ = (cs + (secSum d + sumData ss)) % 4294967296
        rw [Nat.mod_add_mod, Nat.add_assoc]
      rw [e1, e2, e3]

theorem mkImage_length (secs : List (Nat × List Nat)) (e c : Nat) (pad : List Nat) :
    (mkImage secs e c pad).length = 16 + (encSections secs).length + pad.length := by
  simp [mkImage, fwHeader]; omega

theorem sumData_append (X Y : List (Nat × List Nat)) :
    sumData (X ++ Y) = sumData X + sumData Y := by
  induction X with
  | nil => simp [sumData]
  | cons s ss ih => simp [sumData, ih]; omega

theorem secSum_append (d1 : List Nat) (y : Nat) (d2 : List Nat) :
    secSum (d1 ++ y :: d2) = secSum d1 + (y % 4294967296 + secSum d2) := by
  simp [secSum]

/-- Evaluation of `validate_image` on a structurally well-formed image: it reduces to the
checksum comparison: every header check passes, the section walk
accumulates exactly the 32-bit word-sum of all section data, and the
result is decided by comparing it with the stored checksum word. -/
theorem validate_mk (secs : List (Nat × List Nat)) (e c : Nat) (pad : List Nat)
    (hs : ∀ s ∈ secs, s.2 ≠ [] ∧ s.2.length < 4294967296)
    (hc : c < 4294967296)
    (hlen : 10240 ≤ (mkImage secs e c pad).length) :
    validate_image (mkImage secs e c pad)
      = if sumData secs % 4294967296 = c then .ok () else .error .checksumMismatch := by
  have hml := mkImage_length secs e c pad
  have henc := encSections_length_ge secs (fun s hsm => (hs s hsm).1)
  have hg0 : (mkImage secs e c pad).getD 0 0 = 67 := by simp [mkImage, fwHeader]
  have hg1 : (mkImage secs e c pad).getD 1 0 = 89 := by simp [mkImage, fwHeader]
  have hg2 : (mkImage secs e c pad).getD 2 0 = 28 := by simp [mkImage, fwHeader]
  have hg3 : (mkImage secs e c pad).getD 3 0 = 176 := by simp [mkImage, fwHeader]
  have hwalk1 := sectionWalk_append secs fwHeader (le32 0 ++ (le32 e ++ (le32 c ++ pad)))
    (mkImage secs e c pad).length 0 hs (by omega) (by simp; omega) (by norm_num)
  have heq : fwHeader ++ (encSections secs ++ (le32 0 ++ (le32 e ++ (le32 c ++ pad))))
      = mkImage secs e c pad := rfl
  rw [heq] at hwalk1
  have hfhl : fwHeader.length = 4 := rfl
  rw [hfhl, Nat.zero_add] at hwalk1
  obtain ⟨k, hk⟩ : ∃ k, (mkImage secs e c pad).length - secs.length = k + 1 :=
    ⟨(mkImage secs e c pad).length - secs.length - 1, by omega⟩
  have hterm := sectionWalk_term (fwHeader ++ encSections secs)
    (le32 e ++ (le32 c ++ pad)) k (sumData secs % 4294967296)
  have hshape : (fwHeader ++ encSections secs) ++ (le32 0 ++ (le32 e ++ (le32 c ++ pad)))
      = mkImage secs e c pad := by
    simp [mkImage, List.append_assoc]
  rw [hshape] at hterm
  have hlenA : (fwHeader ++ encSections secs).length = 4 + (encSections secs).length := by
    simp [fwHeader]; omega
  rw [hlenA, ← hk] at hterm
  have hentry := wordAt_append ((fwHeader ++ encSections secs) ++ le32 0) (le32 c ++ pad) e
  have hshape2 : ((fwHeader ++ encSections secs) ++ le32 0) ++ (le32 e ++ (le32 c ++ pad))
      = mkImage secs e c pad := by
    simp [mkImage, List.append_assoc]
  rw [hshape2] at hentry
  have hpos2 : ((fwHeader ++ encSections secs) ++ le32 0).length
      = 4 + (encSections secs).length + 4 := by
    simp [fwHeader]; omega
  rw [hpos2] at hentry
  have hchk := wordAt_append (((fwHeader ++ encSections secs) ++ le32 0) ++ le32 e) pad c
  have hshape3 : (((fwHeader ++ encSections secs) ++ le32 0) ++ le32 e) ++ (le32 c ++ pad)
      = mkImage secs e c pad := by
    simp [mkImage, List.append_assoc]
  rw [hshape3] at hchk
  have hpos3 : (((fwHeader ++ encSections secs) ++ le32 0) ++ le32 e).length
      = 4 + (encSections secs).length + 4 + 4 := by
    simp [fwHeader]; omega
  rw [hpos3, Nat.mod_eq_of_lt hc] at hchk
  unfold validate_image
  rw [if_neg (by omega : ¬ (mkImage secs e c pad).length < 10240)]
  rw [if_neg (by simp only [hg0, hg1]; simp)]
  rw [if_neg (by simp only [hg2]; simp)]
  rw [if_neg (by simp only [hg3]; simp)]
  rw [hwalk1, hterm]
  dsimp only
  rw [hentry, hchk]

/-- C9: a byte buffer shorter than 10240 bytes is rejected as too
small, regardless of content. -/
theorem validate_image_too_small (bs : List Nat) (h : bs.length < 10240) :
    validate_image bs = .error .tooSmall := by
  unfold validate_image
  rw [if_pos h]

/-- Witness for C9 at the empty buffer. -/
theorem validate_image_too_small_witness :
    ([] : List Nat).length < 10240 ∧ validate_image [] = .error .tooSmall :=
  ⟨by decide, validate_image_too_small [] (by decide)⟩

/-- C3: for every structurally well-formed firmware image, validation
succeeds exactly when the 32-bit word-sum of all section data equals
the stored checksum word; a failing comparison yields the checksum
mismatch error; and flipping any single data word of a validating
image makes validation fail with the checksum mismatch error. -/
theorem validate_image_checksum_iff (secs : List (Nat × List Nat)) (e c : Nat) (pad : List Nat)
    (hs : ∀ s ∈ secs, s.2 ≠ [] ∧ s.2.length < 4294967296)
    (hc : c < 4294967296)
    (hlen : 10240 ≤ (mkImage secs e c pad).length) :
    (validate_image (mkImage secs e c pad) = .ok () ↔ sumData secs % 4294967296 = c)
    ∧ (sumData secs % 4294967296 ≠ c →
        validate_image (mkImage secs e c pad) = .error .checksumMismatch)
    ∧ (∀ S1 st d1 w d2 S2 w',
        secs = S1 ++ (st, d1 ++ w :: d2) :: S2 →
        w < 4294967296 → w' < 4294967296 → w' ≠ w →
        validate_image (mkImage secs e c pad) = .ok () →
        validate_image (mkImage (S1 ++ (st, d1 ++ w' :: d2) :: S2) e c pad)
          = .error .checksumMismatch) := by
  refine ⟨?_, ?_, ?_⟩
  · rw [validate_mk secs e c pad hs hc hlen]
    by_cases h : sumData secs % 4294967296 = c <;> simp [h]
  · intro h
    rw [validate_mk secs e c pad hs hc hlen, if_neg h]
  · intro S1 st d1 w d2 S2 w' hsecs hw hw' hne hok
    have hcond : sumData secs % 4294967296 = c := by
      by_contra hcond
      rw [validate_mk secs e c pad hs hc hlen, if_neg hcond] at hok
      exact absurd hok (by simp)
    have hs' : ∀ s ∈ S1 ++ (st, d1 ++ w' :: d2) :: S2,
        s.2 ≠ [] ∧ s.2.length < 4294967296 := by
      intro s hmem
      rcases List.mem_append.1 hmem with h1 | h2
      · exact hs s (by rw [hsecs]; exact List.mem_append.2 (Or.inl h1))
      · rcases List.mem_cons.1 h2 with h3 | h4
        · subst h3
          have := hs (st, d1 ++ w :: d2) (by rw [hsecs]; simp)
          constructor
          · simp
          · have := this.2
            simp at this ⊢
            omega
        · exact hs s (by rw [hsecs]; simp [h4])
    have hlen' : (mkImage (S1 ++ (st, d1 ++ w' :: d2) :: S2) e c pad).length
        = (mkImage secs e c pad).length := by
      rw [hsecs, mkImage_length, mkImage_length, encSections_length, encSections_length]
      simp
    have hsum : sumData secs = sumData S1 + (secSum d1 + (w % 4294967296 + secSum d2)) + sumData S2 := by
      rw [hsecs, sumData_append]
      show _ + (secSum (d1 ++ w :: d2) + sumData S2) = _
      rw [secSum_append]
      omega
    have hsum' : sumData (S1 ++ (st, d1 ++ w' :: d2) :: S2)
        = sumData S1 + (secSum d1 + (w' % 4294967296 + secSum d2)) + sumData S2 := by
      rw [sumData_append]
      show _ + (secSum (d1 ++ w' :: d2) + sumData S2) = _
      rw [secSum_append]
      omega
    have hcond' : sumData (S1 ++ (st, d1 ++ w' :: d2) :: S2) % 4294967296 ≠ c := by
      rw [hsum']
      rw [hsum] at hcond
      omega
    rw [validate_mk _ e c pad hs' hc (by rw [hlen']; exact hlen), if_neg hcond']


/-! ### Concrete buffers

`repWord v n` is a plain recursive constant-list builder used for the
concrete witnesses (a `n`-byte buffer of value `v`). -/

def repWord (v : Nat) : Nat → List Nat
  | 0 => []
  | n+1 => v :: repWord v n

@[simp] theorem repWord_length (v : Nat) : ∀ n, (repWord v n).length = n := by
  intro n
  induction n with
  | zero => rfl
  | succ m ih => simp [repWord, ih]

/-- Witness for C3: the concrete 10240-byte image (one section of four
data words of value 1, entry 0, padding to 10240 bytes) validates with
checksum 4 and fails with the checksum-mismatch error with checksum 5. -/
theorem validate_image_checksum_iff_witness :
    validate_image (mkImage [(0, [1, 1, 1, 1])] 0 4 (repWord 0 10200)) = .ok ()
    ∧ validate_image (mkImage [(0, [1, 1, 1, 1])] 0 5 (repWord 0 10200))
        = .error .checksumMismatch :=
  ⟨(validate_image_checksum_iff [(0, [1, 1, 1, 1])] 0 4 (repWord 0 10200)
      (by decide) (by norm_num)
      (by rw [mkImage_length, encSections_length]; simp)).1.mpr (by decide),
   (validate_image_checksum_iff [(0, [1, 1, 1, 1])] 0 5 (repWord 0 10200)
      (by decide) (by norm_num)
      (by rw [mkImage_length, encSections_length]; simp)).2.1 (by decide)⟩

/-! ### Bounds of the validation walk (C6) -/

theorem wordAt_isSome (bs : List Nat) (p : Nat) (h : p + 4 ≤ bs.length) :
    ∃ w, wordAt bs p = some w := by
  unfold wordAt
  rw [if_pos h]
  exact ⟨_, rfl⟩

theorem sumWords_isSome (bs : List Nat) :
    ∀ (n p : Nat), p + 4 * n ≤ bs.length → ∃ v, sumWords bs p n = some v := by
  intro n
  induction n with
  | zero => intro p _; exact ⟨0, rfl⟩
  | succ m ih =>
    intro p hp
    obtain ⟨w, hw⟩ := wordAt_isSome bs p (by omega)
    obtain ⟨v, hv⟩ := ih (p + 4) (by omega)
    refine ⟨w + v, ?_⟩
    unfold sumWords
    rw [hw, hv]

/-- When both the buffer size and the walk position are word-aligned,
the section walk never reads out of bounds and never exhausts its fuel:
it ends in `sectionTooLarge` or succeeds at a position leaving at least
the trailing entry-address and checksum words in bounds. -/
theorem sectionWalk_aligned (bs : List Nat) (hlen4 : bs.length % 4 = 0) :
    ∀ (fuel pos cs : Nat), pos % 4 = 0 → pos + 12 ≤ bs.length →
      bs.length - pos ≤ fuel →
      (sectionWalk bs fuel pos cs = .error .sectionTooLarge
       ∨ ∃ p cs2, sectionWalk bs fuel pos cs = .ok (p, cs2) ∧ p + 8 ≤ bs.length) := by
  intro fuel
  induction fuel with
  | zero => intro pos cs h4 h12 hf; exfalso; omega
  | succ f ih =>
    intro pos cs h4 h12 hf
    obtain ⟨loadSz, hls⟩ := wordAt_isSome bs pos (by omega)
    by_cases h0 : loadSz = 0
    · right
      refine ⟨pos + 4, cs, ?_, by omega⟩
      simp only [sectionWalk, hls]
      rw [if_pos h0]
    · obtain ⟨sst, hsst⟩ := wordAt_isSome bs (pos + 4) (by omega)
      by_cases hbig : bs.length - 8 ≤ pos + 8 + 4 * loadSz
      · left
        simp only [sectionWalk, hls, hsst]
        rw [if_neg h0, if_pos hbig]
      · obtain ⟨s, hsum⟩ := sumWords_isSome bs loadSz (pos + 8) (by omega)
        have hstep : sectionWalk bs (f + 1) pos cs
            = sectionWalk bs f (pos + 8 + 4 * loadSz) ((cs + s) % 4294967296) := by
          simp only [sectionWalk, hls, hsst, hsum]
          rw [if_neg h0, if_neg hbig]
        rw [hstep]
        exact ih (pos + 8 + 4 * loadSz) ((cs + s) % 4294967296) (by omega) (by omega) (by omega)

/-- C6 (amended): when the image size is a multiple of 4, validation of
any buffer of at least 10240 bytes performs no out-of-bounds word read
and its section walk terminates within the available fuel. -/
theorem validate_image_reads_in_bounds_aligned (bs : List Nat)
    (hlen : 10240 ≤ bs.length) (h4 : bs.length % 4 = 0) :
    validate_image bs ≠ .error .oob ∧ validate_image bs ≠ .error .fuelOut := by
  have hcases : validate_image bs = .error .badMagic ∨ validate_image bs = .error .badConfig
      ∨ validate_image bs = .error .badType ∨ validate_image bs = .error .sectionTooLarge
      ∨ validate_image bs = .error .checksumMismatch ∨ validate_image bs = .ok () := by
    unfold validate_image
    rw [if_neg (by omega)]
    by_cases hm : bs.getD 0 0 = 67 ∧ bs.getD 1 0 = 89
    case neg => rw [if_pos hm]; tauto
    rw [if_neg (not_not_intro hm)]
    by_cases hcfg : bs.getD 2 0 = 28
    case neg => rw [if_pos hcfg]; tauto
    rw [if_neg (not_not_intro hcfg)]
    by_cases hty : bs.getD 3 0 = 176
    case neg => rw [if_pos hty]; tauto
    rw [if_neg (not_not_intro hty)]
    rcases sectionWalk_aligned bs h4 bs.length 4 0 (by norm_num) (by omega) (by omega) with
      hw | ⟨p, cs2, hw, hp⟩
    · rw [hw]; tauto
    · rw [hw]
      dsimp only
      obtain ⟨w1, hw1⟩ := wordAt_isSome bs p (by omega)
      obtain ⟨w2, hw2⟩ := wordAt_isSome bs (p + 4) (by omega)
      rw [hw1, hw2]
      dsimp only
      by_cases hcs : cs2 = w2
      · rw [if_pos hcs]; tauto
      · rw [if_neg hcs]; tauto
  constructor <;> (rcases hcases with h | h | h | h | h | h <;> simp [h])

/-- Witness for the amended C6 at a concrete all-zero 10240-byte
buffer. -/
theorem validate_image_reads_in_bounds_aligned_witness :
    10240 ≤ (repWord 0 10240).length
    ∧ (repWord 0 10240).length % 4 = 0
    ∧ validate_image (repWord 0 10240) ≠ .error .oob :=
  ⟨by simp, by simp,
   (validate_image_reads_in_bounds_aligned (repWord 0 10240) (by simp) (by simp)).1⟩

/-- A 10242-byte image (size not a multiple of 4) that passes the size
and header checks and whose section walk passes every `end - 2` bound
check, yet whose trailing checksum word read runs past the end of the
buffer: one section of 2555 data words puts the terminator at offset
10232, the entry address at 10236, and the checksum read at 10240,
which needs bytes 10240..10243 of a 10242-byte buffer. -/
def oobImage : List Nat :=
  fwHeader ++ (encSections [(0, repWord 1 2555)] ++ (le32 0 ++ (le32 0 ++ [0, 0])))

theorem oobImage_length : oobImage.length = 10242 := by
  simp [oobImage, fwHeader, encSections_length]

/-- Counterexample for C6 as stated: `oobImage` passes the size check
and all header checks, every section passes the walk's bound check, yet
validation performs an out-of-bounds word read (the checksum word). -/
theorem validate_image_oob_unaligned :
    10240 ≤ oobImage.length
    ∧ oobImage.getD 0 0 = 67 ∧ oobImage.getD 1 0 = 89
    ∧ oobImage.getD 2 0 = 28 ∧ oobImage.getD 3 0 = 176
    ∧ validate_image oobImage = .error .oob := by
  have hL := oobImage_length
  have hg0 : oobImage.getD 0 0 = 67 := by simp [oobImage, fwHeader]
  have hg1 : oobImage.getD 1 0 = 89 := by simp [oobImage, fwHeader]
  have hg2 : oobImage.getD 2 0 = 28 := by simp [oobImage, fwHeader]
  have hg3 : oobImage.getD 3 0 = 176 := by simp [oobImage, fwHeader]
  refine ⟨by omega, hg0, hg1, hg2, hg3, ?_⟩
  have hsecs : ∀ s ∈ [((0 : Nat), repWord 1 2555)], s.2 ≠ [] ∧ s.2.length < 4294967296 := by
    intro s hs
    simp only [List.mem_singleton] at hs
    subst hs
    refine ⟨fun h => ?_, ?_⟩
    · have := congrArg List.length h
      simp at this
    · simp
  have hwalk1 := sectionWalk_append [(0, repWord 1 2555)] fwHeader
    (le32 0 ++ (le32 0 ++ [0, 0])) oobImage.length 0
    hsecs (by simp only [List.length_cons, List.length_nil]; omega)
    (by simp [le32]) (by norm_num)
  have heq : fwHeader ++ (encSections [(0, repWord 1 2555)] ++ (le32 0 ++ (le32 0 ++ [0, 0])))
      = oobImage := rfl
  rw [heq] at hwalk1
  have hfhl : fwHeader.length = 4 := rfl
  have hencl : (encSections [(0, repWord 1 2555)]).length = 10228 := by
    simp [encSections_length]
  rw [hfhl, hencl, Nat.zero_add, hL] at hwalk1
  norm_num at hwalk1
  have hterm := sectionWalk_term (fwHeader ++ encSections [(0, repWord 1 2555)])
    (le32 0 ++ [0, 0]) 10240 (sumData [(0, repWord 1 2555)] % 4294967296)
  have hshape : (fwHeader ++ encSections [(0, repWord 1 2555)]) ++ (le32 0 ++ (le32 0 ++ [0, 0]))
      = oobImage := by
    simp only [oobImage, List.append_assoc]
  rw [hshape] at hterm
  have hlenA : (fwHeader ++ encSections [(0, repWord 1 2555)]).length = 10232 := by
    simp [fwHeader, hencl]
  rw [hlenA] at hterm
  norm_num at hterm
  have hentry : wordAt oobImage 10236 = some 0 := by
    have hx := wordAt_append ((fwHeader ++ encSections [(0, repWord 1 2555)]) ++ le32 0) [0, 0] 0
    have hshape2 : ((fwHeader ++ encSections [(0, repWord 1 2555)]) ++ le32 0) ++ (le32 0 ++ [0, 0])
        = oobImage := by
      simp only [oobImage, List.append_assoc]
    rw [hshape2] at hx
    have hpos2 : ((fwHeader ++ encSections [(0, repWord 1 2555)]) ++ le32 0).length = 10236 := by
      simp [fwHeader, hencl]
    rw [hpos2] at hx
    simpa using hx
  have hnone : wordAt oobImage 10240 = none := by
    unfold wordAt
    rw [if_neg (by omega)]
  unfold validate_image
  rw [if_neg (by omega)]
  rw [if_neg (by simp only [hg0, hg1]; simp)]
  rw [if_neg (by simp only [hg2]; simp)]
  rw [if_neg (by simp only [hg3]; simp)]
  rw [hL, hwalk1, hterm]
  dsimp only
  rw [hentry, show (10236 : Nat) + 4 = 10240 from rfl, hnone]

/-! ### ADC streaming engine (`adc.c`) -/

/-- Engine status (`enum ADCStatus` in adc.c). -/
inductive ADCStatus
  | off
  | ready
  | streaming
  | cancelled
  | failed
deriving DecidableEq

/-- The engine state touched by start/stop and the completion
dispatcher: the status, the atomic in-flight counter
(`atomic_int active_transfers`, embedded as `Int`; `atomic_fetch_sub`
can drive it below zero) and the size of the descriptor ring. -/
structure AdcState where
  status : ADCStatus
  active : Int
  numFrames : Nat
deriving DecidableEq

/-- libusb transfer completion statuses as seen by the dispatcher. -/
inductive XferStatus
  | completed
  | transferError
  | timedOut
  | cancelled
  | stall
  | noDevice
  | overflow
deriving DecidableEq

/-- One completed transfer as seen by the dispatcher: the ring index of
its descriptor, its completion status and the bytes transferred. -/
structure Transfer where
  idx : Nat
  status : XferStatus
  actualLength : Nat
deriving DecidableEq

/-- The observable outcome of one dispatcher invocation: the engine
state afterwards, the sample lengths delivered to the user callback,
the descriptors resubmitted, and the descriptor index named by each
issued cancellation request. -/
structure DispatchOut where
  st : AdcState
  samples : List Nat
  resubmitted : List Nat
  cancels : List Nat
deriving DecidableEq

/-- Shallow embedding of `adc_read_async_callback` (adc.c:248-291).
`submitOk` is the outcome of the `libusb_submit_transfer` resubmission.
On the failure path the source marks the engine FAILED, decrements the
counter with `atomic_fetch_sub`, and loops `for i < num_frames` calling
`libusb_cancel_transfer(transfer)` on the transfer that completed — the
loop index `i` is unused — so every emitted cancellation request names
the completed transfer's own descriptor; cancellation outcomes are only
logged there and do not change the state. -/
def adc_read_async_callback (s : AdcState) (t : Transfer) (submitOk : Bool) : DispatchOut :=
  match t.status with
  | .completed =>
    if s.status = .streaming then
      if submitOk then ⟨s, [t.actualLength], [t.idx], []⟩
      else ⟨⟨.failed, s.active - 1, s.numFrames⟩, [t.actualLength], [],
            List.replicate s.numFrames t.idx⟩
    else ⟨⟨.failed, s.active - 1, s.numFrames⟩, [], [],
          List.replicate s.numFrames t.idx⟩
  | .cancelled =>
    ⟨⟨if s.active = 1 ∧ s.status = .cancelled then .ready else s.status,
      s.active - 1, s.numFrames⟩, [], [], []⟩
  | _ =>
    ⟨⟨.failed, s.active - 1, s.numFrames⟩, [], [],
     List.replicate s.numFrames t.idx⟩

/-- Result of `adc_start`: the C return value, the engine state and the
ring indices successfully submitted. -/
structure StartOut where
  ret : Int
  st : AdcState
  submitted : List Nat
deriving DecidableEq

/-- The submission loop of `adc_start`: submit descriptors `i`, `i+1`,
... in order, incrementing the counter after each success; on the
first failure mark the engine FAILED and return -1. -/
def adc_start_loop (submitOk : Nat → Bool) (nf i : Nat) (active : Int) (subs : List Nat) :
    StartOut :=
  if i < nf then
    if submitOk i then adc_start_loop submitOk nf (i + 1) (active + 1) (subs ++ [i])
    else ⟨-1, ⟨.failed, active, nf⟩, subs⟩
  else ⟨0, ⟨.streaming, active, nf⟩, subs⟩
termination_by nf - i
decreasing_by omega

/-- Shallow embedding of `adc_start` (adc.c:195-217): refuse when the
status is not READY, otherwise reset the counter to 0 and submit every
descriptor in order. -/
def adc_start (s : AdcState) (submitOk : Nat → Bool) : StartOut :=
  if s.status ≠ .ready then ⟨-1, s, []⟩
  else adc_start_loop submitOk s.numFrames 0 0 []

/-- Outcome of one `libusb_cancel_transfer` request in `adc_stop`. -/
inductive CancelOutcome
  | ok
  | notFound
  | otherError
deriving DecidableEq

/-- Shallow embedding of `adc_stop` (adc.c:220-244): set CANCELLED
first, request cancellation of every descriptor — a not-found outcome
is tolerated, any other cancellation error marks the engine FAILED and
the loop continues — then run one non-blocking event flush whose
failure also marks the engine FAILED.  Every path returns 0. -/
def adc_stop (s : AdcState) (cancelRes : Nat → CancelOutcome) (flushOk : Bool) :
    Int × AdcState :=
  let st1 := (List.range s.numFrames).foldl
    (fun st i =>
      match cancelRes i with
      | .otherError => ADCStatus.failed
      | _ => st) ADCStatus.cancelled
  let st2 := if flushOk then st1 else ADCStatus.failed
  (0, ⟨st2, s.active, s.numFrames⟩)

/-- C5: `adc_start` on an engine whose status is not READY returns -1
and leaves the state unchanged: the active counter is untouched and no
transfer is submitted. -/
theorem adc_start_not_ready_no_change (s : AdcState) (submitOk : Nat → Bool)
    (h : s.status ≠ .ready) :
    adc_start s submitOk = ⟨-1, s, []⟩ := by
  unfold adc_start
  rw [if_pos h]

/-- Witness for C5 on a streaming engine. -/
theorem adc_start_not_ready_no_change_witness :
    (⟨.streaming, 4, 4⟩ : AdcState).status ≠ .ready
    ∧ adc_start ⟨.streaming, 4, 4⟩ (fun _ => true) = ⟨-1, ⟨.streaming, 4, 4⟩, []⟩ :=
  ⟨by decide, adc_start_not_ready_no_change ⟨.streaming, 4, 4⟩ (fun _ => true) (by decide)⟩

theorem adc_stop_foldl_keep_failed (cancelRes : Nat → CancelOutcome) :
    ∀ (l : List Nat),
      l.foldl (fun st i =>
        match cancelRes i with
        | .otherError => ADCStatus.failed
        | _ => st) ADCStatus.failed = ADCStatus.failed := by
  intro l
  induction l with
  | nil => rfl
  | cons a l ih =>
    show List.foldl _ (match cancelRes a with
      | .otherError => ADCStatus.failed
      | _ => ADCStatus.failed) l = _
    cases cancelRes a <;> exact ih

theorem adc_stop_foldl_failed (cancelRes : Nat → CancelOutcome) :
    ∀ (l : List Nat) (st : ADCStatus), (∃ i ∈ l, cancelRes i = .otherError) →
      l.foldl (fun st i =>
        match cancelRes i with
        | .otherError => ADCStatus.failed
        | _ => st) st = ADCStatus.failed := by
  intro l
  induction l with
  | nil => intro st h; exact absurd h (by simp)
  | cons a l ih =>
    intro st h
    rcases h with ⟨i, hmem, hres⟩
    rcases List.mem_cons.1 hmem with rfl | hl
    · show List.foldl _ (match cancelRes i with
        | .otherError => ADCStatus.failed
        | _ => st) l = _
      rw [hres]
      exact adc_stop_foldl_keep_failed cancelRes l
    · show List.foldl _ (match cancelRes a with
        | .otherError => ADCStatus.failed
        | _ => st) l = _
      cases cancelRes a
      · exact ih st ⟨i, hl, hres⟩
      · exact ih st ⟨i, hl, hres⟩
      · exact adc_stop_foldl_keep_failed cancelRes l

/-- C10: `adc_stop` returns 0 for every engine state and every
cancellation/flush outcome; when some cancellation fails with an error
other than not-found, or the non-blocking flush fails, the engine is
left FAILED — an outcome observable only through the status, never
through the return value — and the active counter is untouched. -/
theorem adc_stop_returns_zero (s : AdcState) (cancelRes : Nat → CancelOutcome)
    (flushOk : Bool) :
    (adc_stop s cancelRes flushOk).1 = 0
    ∧ (((∃ i < s.numFrames, cancelRes i = .otherError) ∨ flushOk = false) →
        (adc_stop s cancelRes flushOk).2.status = .failed)
    ∧ (adc_stop s cancelRes flushOk).2.active = s.active := by
  refine ⟨rfl, ?_, rfl⟩
  intro h
  rcases h with ⟨i, hi, hres⟩ | hfl
  · show (if flushOk then _ else ADCStatus.failed) = ADCStatus.failed
    have hfold := adc_stop_foldl_failed cancelRes (List.range s.numFrames)
      ADCStatus.cancelled ⟨i, List.mem_range.2 hi, hres⟩
    rw [hfold]
    cases flushOk <;> rfl
  · show (if flushOk then _ else ADCStatus.failed) = ADCStatus.failed
    rw [hfl]
    rfl

/-- Witness for C10: a cancellation error on descriptor 2 of a
streaming 4-frame engine still yields return value 0, with the failure
recorded in the status. -/
theorem adc_stop_returns_zero_witness :
    (adc_stop ⟨.streaming, 4, 4⟩
       (fun j => if j = 2 then CancelOutcome.otherError else CancelOutcome.ok) true).1 = 0
    ∧ (adc_stop ⟨.streaming, 4, 4⟩
       (fun j => if j = 2 then CancelOutcome.otherError else CancelOutcome.ok) true).2.status
        = .failed :=
  ⟨(adc_stop_returns_zero ⟨.streaming, 4, 4⟩ _ true).1,
   (adc_stop_returns_zero ⟨.streaming, 4, 4⟩ _ true).2.1
     (Or.inl ⟨2, by decide, by decide⟩)⟩

/-- C1 (code evaluation at the failing input): a bulk transfer of
descriptor 0 fails with an error status on a streaming 2-descriptor
engine with 2 transfers in flight.  The dispatcher marks the engine
FAILED, decrements the counter to 1, delivers no sample — but both
cancellation requests it issues name descriptor 0, the failed transfer
itself; descriptor 1 is never cancelled (adc.c:282 passes `transfer`,
not `&this->transfers[i]`, to `libusb_cancel_transfer`, while its own
comment says "cancel all the active transfers" and the analogous loop
in `adc_stop` cancels `&this->transfers[i]`). -/
theorem adc_callback_failure_cancels_only_failed_transfer :
    adc_read_async_callback ⟨.streaming, 2, 2⟩ ⟨0, .transferError, 0⟩ true
      = ⟨⟨.failed, 1, 2⟩, [], [], [0, 0]⟩
    ∧ 1 ∉ (adc_read_async_callback ⟨.streaming, 2, 2⟩ ⟨0, .transferError, 0⟩ true).cancels := by
  refine ⟨by decide, by decide⟩

/-- Counterexample for C2 as stated: after `stop()` (status CANCELLED,
two transfers still outstanding), a completion event with status
COMPLETED — a transfer that finished before its cancellation took
effect — is processed by the dispatcher.  The engine leaves CANCELLED
for FAILED while the counter is still positive, so the status does not
remain CANCELLED for every subsequent completion event until the
counter reaches 0. -/
theorem adc_completed_after_stop_goes_failed :
    (adc_stop ⟨.streaming, 2, 4⟩ (fun _ => .ok) true).2.status = .cancelled
    ∧ (adc_read_async_callback (adc_stop ⟨.streaming, 2, 4⟩ (fun _ => .ok) true).2
        ⟨0, .completed, 512⟩ true).st.status = .failed
    ∧ (adc_read_async_callback (adc_stop ⟨.streaming, 2, 4⟩ (fun _ => .ok) true).2
        ⟨0, .completed, 512⟩ true).st.active = 1 := by
  refine ⟨by decide, by decide, by decide⟩

/-- Iterated dispatch of cancelled completion events: the drain
following `stop()`. -/
def iterCancelled (s : AdcState) : Nat → AdcState
  | 0 => s
  | k+1 => iterCancelled (adc_read_async_callback s ⟨0, .cancelled, 0⟩ true).st k

theorem iterCancelled_step_lt :
    ∀ (k n f : Nat), k < n →
      iterCancelled ⟨.cancelled, (n : Int), f⟩ k = ⟨.cancelled, (n : Int) - (k : Int), f⟩ := by
  intro k
  induction k with
  | zero =>
    intro n f _
    show (⟨.cancelled, (n : Int), f⟩ : AdcState) = _
    simp
  | succ m ih =>
    intro n f hlt
    have hn2 : 2 ≤ n := by omega
    have hstep : (adc_read_async_callback ⟨.cancelled, (n : Int), f⟩ ⟨0, .cancelled, 0⟩ true).st
        = ⟨.cancelled, ((n - 1 : Nat) : Int), f⟩ := by
      simp only [adc_read_async_callback]
      rw [if_neg (by intro hc; have := hc.1; omega)]
      congr 1
      omega
    show iterCancelled (adc_read_async_callback ⟨.cancelled, (n : Int), f⟩ ⟨0, .cancelled, 0⟩ true).st m = _
    rw [hstep, ih (n - 1) f (by omega)]
    congr 1
    omega

theorem iterCancelled_add (s : AdcState) (a : Nat) :
    ∀ b, iterCancelled s (a + b) = iterCancelled (iterCancelled s a) b := by
  induction a generalizing s with
  | zero => intro b; rw [Nat.zero_add]; rfl
  | succ m ih =>
    intro b
    rw [Nat.add_right_comm]
    show iterCancelled (adc_read_async_callback s ⟨0, .cancelled, 0⟩ true).st (m + b) = _
    rw [ih]
    rfl

theorem iterCancelled_done (n f : Nat) (h : 1 ≤ n) :
    iterCancelled ⟨.cancelled, (n : Int), f⟩ n = ⟨.ready, 0, f⟩ := by
  have hadd := iterCancelled_add ⟨.cancelled, (n : Int), f⟩ (n - 1) 1
  rw [show n - 1 + 1 = n from by omega] at hadd
  rw [hadd, iterCancelled_step_lt (n - 1) n f (by omega)]
  have h1 : (n : Int) - ((n - 1 : Nat) : Int) = 1 := by omega
  rw [h1]
  show (adc_read_async_callback ⟨.cancelled, 1, f⟩ ⟨0, .cancelled, 0⟩ true).st = _
  simp [adc_read_async_callback]

/-- C2 (amended): per cancelled completion event the dispatcher
decrements the counter and delivers no sample; the status becomes READY
exactly when the pre-decrement counter was 1 with status CANCELLED and
stays CANCELLED otherwise; a dispatcher invocation can only produce
READY from a cancelled completion observed with pre-decrement counter 1
while CANCELLED (or from an engine already READY); and draining `n`
outstanding transfers with `n` cancelled completions keeps the status
CANCELLED at every intermediate step and performs the single
CANCELLED-to-READY transition at the final completion, with the counter
at 0. -/
theorem adc_cancelled_drain_ready :
    (∀ (s : AdcState) (t : Transfer) (submitOk : Bool),
       s.status = .cancelled → t.status = .cancelled →
       (adc_read_async_callback s t submitOk).st.active = s.active - 1
       ∧ (adc_read_async_callback s t submitOk).samples = []
       ∧ (s.active = 1 → (adc_read_async_callback s t submitOk).st.status = .ready)
       ∧ (s.active ≠ 1 → (adc_read_async_callback s t submitOk).st.status = .cancelled))
    ∧ (∀ (s : AdcState) (t : Transfer) (submitOk : Bool),
       (adc_read_async_callback s t submitOk).st.status = .ready →
       t.status = .cancelled ∧ (s.status = .ready ∨ (s.status = .cancelled ∧ s.active = 1)))
    ∧ (∀ (n f : Nat), 1 ≤ n →
       (∀ k, k < n → (iterCancelled ⟨.cancelled, (n : Int), f⟩ k).status = .cancelled)
       ∧ iterCancelled ⟨.cancelled, (n : Int), f⟩ n = ⟨.ready, 0, f⟩) := by
  refine ⟨?_, ?_, ?_⟩
  · intro s t submitOk hs ht
    refine ⟨?_, ?_, ?_, ?_⟩
    · simp [adc_read_async_callback, ht]
    · simp [adc_read_async_callback, ht]
    · intro h1
      simp [adc_read_async_callback, ht, h1, hs]
    · intro h1
      simp [adc_read_async_callback, ht, h1, hs]
  · intro s t submitOk h
    cases ht : t.status <;> simp only [adc_read_async_callback, ht] at h
    case completed =>
      by_cases hstr : s.status = .streaming
      · rw [if_pos hstr] at h
        cases submitOk <;> simp_all
      · rw [if_neg hstr] at h
        simp at h
    case cancelled =>
      refine ⟨rfl, ?_⟩
      by_cases hc : s.active = 1 ∧ s.status = .cancelled
      · exact Or.inr ⟨hc.2, hc.1⟩
      · rw [if_neg hc] at h
        exact Or.inl h
    all_goals simp at h
  · intro n f hn
    refine ⟨?_, iterCancelled_done n f hn⟩
    intro k hk
    rw [iterCancelled_step_lt k n f hk]

/-- Witness for the amended C2: draining a 4-transfer stop cycle keeps
the status CANCELLED through the first three cancelled completions and
reaches READY with counter 0 at the fourth. -/
theorem adc_cancelled_drain_ready_witness :
    (iterCancelled ⟨.cancelled, (4 : Int), 4⟩ 3).status = .cancelled
    ∧ iterCancelled ⟨.cancelled, (4 : Int), 4⟩ 4 = ⟨.ready, 0, 4⟩ :=
  ⟨(adc_cancelled_drain_ready.2.2 4 4 (by norm_num)).1 3 (by norm_num),
   by
     have h := (adc_cancelled_drain_ready.2.2 4 4 (by norm_num)).2
     simpa using h⟩

/-! ### Asynchronous open (`adc_open_async`, C4) -/

/-- The endpoint characteristics of the USB device handle used by
`adc_open_async` (`usb_device_internals.h` fields). -/
structure UsbDevice where
  bulkInEndpointAddress : Nat
  bulkInMaxPacketSize : Nat
  bulkInMaxBurst : Nat
deriving DecidableEq

/-- Failure paths of `adc_open_async` (the C function returns a null
pointer on each; the constructors record which check rejected). -/
inductive OpenError
  | noBulkEndpoint
  | invalidFrameSize
  | bufferAllocationFailed
deriving DecidableEq

/-- The freshly constructed engine record: status READY, the recorded
frame size and frame count, the allocated zero-copy buffers (modelled
by their sizes), the number of prepared transfer descriptors, and the
in-flight counter initialised to 0. -/
structure AdcOpen where
  status : ADCStatus
  frameSize : Nat
  numFrames : Nat
  frames : List Nat
  transferCount : Nat
  active : Int
deriving DecidableEq

/-- Shallow embedding of `adc_open_async` (adc.c:105-167): require a
bulk-in endpoint, substitute the 16 KiB / 64 defaults for zero
arguments, reject a frame size that is not a multiple of
`max_packet_size * max_burst` (that modulo is undefined behaviour in C
when the product is zero, so theorems assume it positive), allocate one
zero-copy buffer per frame (`allocOk` gives each allocation's outcome;
on a failure the already-allocated buffers are freed and the open
fails), and build one transfer descriptor per frame with the counter
initialised to 0. -/
def adc_open_async (dev : UsbDevice) (frameSize numFrames : Nat) (allocOk : Nat → Bool) :
    Except OpenError AdcOpen :=
  if dev.bulkInEndpointAddress = 0 then .error .noBulkEndpoint
  else
    let fs := if frameSize > 0 then frameSize else 16384
    let nf := if numFrames > 0 then numFrames else 64
    let maxXferSize := dev.bulkInMaxPacketSize * dev.bulkInMaxBurst
    if fs % maxXferSize ≠ 0 then .error .invalidFrameSize
    else if (List.range nf).all (fun i => allocOk i) then
      .ok ⟨.ready, fs, nf, List.replicate nf fs, nf, 0⟩
    else .error .bufferAllocationFailed

/-- C4: on a device with a bulk-in endpoint and a positive
`max_packet_size * max_burst`, and with all buffer allocations
succeeding, `adc_open_async` fails with the invalid-frame-size error
exactly when the (default-substituted) frame size is not a multiple of
`max_packet_size * max_burst`; otherwise it succeeds with status READY
and exactly `num_frames` (default-substituted) allocated buffers. -/
theorem adc_open_async_frame_size_check (dev : UsbDevice) (frameSize numFrames : Nat)
    (allocOk : Nat → Bool)
    (hep : dev.bulkInEndpointAddress ≠ 0)
    (hmx : 0 < dev.bulkInMaxPacketSize * dev.bulkInMaxBurst)
    (halloc : ∀ i, allocOk i = true) :
    (adc_open_async dev frameSize numFrames allocOk = .error .invalidFrameSize
      ↔ (if frameSize > 0 then frameSize else 16384)
          % (dev.bulkInMaxPacketSize * dev.bulkInMaxBurst) ≠ 0)
    ∧ ((if frameSize > 0 then frameSize else 16384)
          % (dev.bulkInMaxPacketSize * dev.bulkInMaxBurst) = 0 →
        adc_open_async dev frameSize numFrames allocOk
          = .ok ⟨.ready, (if frameSize > 0 then frameSize else 16384),
                 (if numFrames > 0 then numFrames else 64),
                 List.replicate (if numFrames > 0 then numFrames else 64)
                   (if frameSize > 0 then frameSize else 16384),
                 (if numFrames > 0 then numFrames else 64), 0⟩
        ∧ ∀ a, adc_open_async dev frameSize numFrames allocOk = .ok a →
            a.frames.length = (if numFrames > 0 then numFrames else 64)) := by
  have hall : ((List.range (if numFrames > 0 then numFrames else 64)).all
      (fun i => allocOk i)) = true := by
    rw [List.all_eq_true]
    intro i _
    exact halloc i
  by_cases hmod : (if frameSize > 0 then frameSize else 16384)
      % (dev.bulkInMaxPacketSize * dev.bulkInMaxBurst) = 0
  · have hok : adc_open_async dev frameSize numFrames allocOk
        = .ok ⟨.ready, (if frameSize > 0 then frameSize else 16384),
               (if numFrames > 0 then numFrames else 64),
               List.replicate (if numFrames > 0 then numFrames else 64)
                 (if frameSize > 0 then frameSize else 16384),
               (if numFrames > 0 then numFrames else 64), 0⟩ := by
      unfold adc_open_async
      rw [if_neg hep, if_neg (not_not_intro hmod), if_pos hall]
    refine ⟨by rw [hok]; simp [hmod], fun _ => ⟨hok, ?_⟩⟩
    intro a ha
    rw [hok] at ha
    have := Except.ok.inj ha
    rw [← this]
    simp
  · have herr : adc_open_async dev frameSize numFrames allocOk = .error .invalidFrameSize := by
      unfold adc_open_async
      rw [if_neg hep, if_pos hmod]
    exact ⟨by rw [herr]; simp [hmod], fun h => absurd h hmod⟩

/-- Witness for C4 at the concrete endpoint parameters 512 × 8: frame
size 4096 is accepted (with `num_frames` 0 defaulted to 64 buffers)
and frame size 4000 is rejected with the invalid-frame-size error. -/
theorem adc_open_async_frame_size_check_witness :
    adc_open_async ⟨129, 512, 8⟩ 4096 0 (fun _ => true)
      = .ok ⟨.ready, 4096, 64, List.replicate 64 4096, 64, 0⟩
    ∧ adc_open_async ⟨129, 512, 8⟩ 4000 0 (fun _ => true) = .error .invalidFrameSize :=
  ⟨by
    have h := ((adc_open_async_frame_size_check ⟨129, 512, 8⟩ 4096 0 (fun _ => true)
      (by decide) (by decide) (fun _ => rfl)).2 (by decide)).1
    simpa using h,
   by
    have h := (adc_open_async_frame_size_check ⟨129, 512, 8⟩ 4000 0 (fun _ => true)
      (by decide) (by decide) (fun _ => rfl)).1
    exact h.mpr (by decide)⟩

/-! ### Firmware transfer (`usb_device.c`, `transfer_image`) -/

/-- One issued vendor control transfer: `wValue` (low 16 bits of the
target address), `wIndex` (high 16 bits), the payload bytes and the
requested length `wLength`.  The direction/request-type/recipient byte
and the request code 0xA0 are fixed constants in the source and carry
no information. -/
structure Ctrl where
  wValue : Nat
  wIndex : Nat
  data : List Nat
  wLength : Nat
deriving DecidableEq

/-- Failure paths of `transfer_image`: a negative
`libusb_control_transfer` return, a short write, a read past the end of
the buffer (undefined behaviour in C), or fuel exhaustion. -/
inductive TransferError
  | usbError
  | shortWrite
  | oob
  | fuelOut
deriving DecidableEq

/-- The chunk loop of `transfer_image` (usb_device.c:487-502): split
the section payload into control transfers of at most 2048 bytes
(`wLength = min nleft 2048`); `oracle` gives each transfer's return
value; a negative return is a USB error and a return different from
`wLength` is a short write. -/
def chunkLoop (oracle : Ctrl → Int) (addr : Nat) (data : List Nat) :
    Except TransferError (List Ctrl) :=
  if h : data = [] then .ok []
  else
    if oracle ⟨addr % 65536, addr / 65536, data.take (min data.length 2048),
        min data.length 2048⟩ < 0 then .error .usbError
    else if oracle ⟨addr % 65536, addr / 65536, data.take (min data.length 2048),
        min data.length 2048⟩ ≠ ((min data.length 2048 : Nat) : Int) then .error .shortWrite
    else
      match chunkLoop oracle addr (data.drop (min data.length 2048)) with
      | .error e => .error e
      | .ok ts => .ok (⟨addr % 65536, addr / 65536, data.take (min data.length 2048),
          min data.length 2048⟩ :: ts)
termination_by data.length
decreasing_by
  simp only [List.length_drop]
  have := List.length_pos.2 h
  omega

/-- Shallow embedding of the section walk of `transfer_image`
(usb_device.c:479-504): read the word count (zero terminates) and the
section start address, then push the section's byte payload through the
chunk loop; returns the byte offset just past the terminating zero word
together with the issued transfers. -/
def transferWalk (bs : List Nat) (oracle : Ctrl → Int) :
    Nat → Nat → Except TransferError (Nat × List Ctrl)
  | 0, _ => .error .fuelOut
  | fuel+1, pos =>
    match wordAt bs pos with
    | none => .error .oob
    | some loadSz =>
      if loadSz = 0 then .ok (pos + 4, [])
      else
        match wordAt bs (pos + 4) with
        | none => .error .oob
        | some addr =>
          if bs.length < pos + 8 + 4 * loadSz then .error .oob
          else
            match chunkLoop oracle addr ((bs.drop (pos + 8)).take (4 * loadSz)) with
            | .error e => .error e
            | .ok ts =>
              match transferWalk bs oracle fuel (pos + 8 + 4 * loadSz) with
              | .error e => .error e
              | .ok (p, ts2) => .ok (p, ts ++ ts2)

/-- Shallow embedding of `transfer_image` (usb_device.c:468-519): walk
the sections issuing chunked vendor control transfers, then read the
entry-address and (unused) checksum words, and issue one final
zero-length control transfer addressed at the entry point; a negative
return of that final transfer is only logged as a warning, so the
result does not depend on its outcome. -/
def transfer_image (bs : List Nat) (oracle : Ctrl → Int) : Except TransferError (List Ctrl) :=
  match transferWalk bs oracle bs.length 4 with
  | .error e => .error e
  | .ok (pos, ts) =>
    match wordAt bs pos, wordAt bs (pos + 4) with
    | some entryAddr, some _checksum =>
      .ok (ts ++ [⟨entryAddr % 65536, entryAddr / 65536, [], 0⟩])
    | _, _ => .error .oob

/-- The control-transfer sequence the specification describes for one
section payload: chunks of at most 2048 bytes, each addressed by the
16-bit split of the section start address.  This definition follows
the specification's words; the refinement theorems compare the
source-derived `transfer_image` against it. -/
def specChunks (addr : Nat) (data : List Nat) : List Ctrl :=
  if h : data = [] then []
  else
    ⟨addr % 65536, addr / 65536, data.take (min data.length 2048), min data.length 2048⟩
      :: specChunks addr (data.drop (min data.length 2048))
termination_by data.length
decreasing_by
  simp only [List.length_drop]
  have := List.length_pos.2 h
  omega

/-- The chunk records of all sections, in order. -/
def chunksOfSections : List (Nat × List Nat) → List Ctrl
  | [] => []
  | s :: ss => specChunks s.1 (encWords s.2) ++ chunksOfSections ss

/-- The full control-transfer sequence the specification describes:
all section chunks followed by the final zero-length transfer at the
entry address. -/
def specTransferSequence (secs : List (Nat × List Nat)) (entry : Nat) : List Ctrl :=
  chunksOfSections secs ++ [⟨entry % 65536, entry / 65536, [], 0⟩]

/-- Concatenation of the payloads of a transfer sequence. -/
def joinData : List Ctrl → List Nat
  | [] => []
  | t :: ts => t.data ++ joinData ts

theorem specChunks_nil (addr : Nat) : specChunks addr [] = [] := by
  unfold specChunks
  rw [dif_pos rfl]

theorem specChunks_cons (addr : Nat) (data : List Nat) (h : data ≠ []) :
    specChunks addr data
      = ⟨addr % 65536, addr / 65536, data.take (min data.length 2048), min data.length 2048⟩
        :: specChunks addr (data.drop (min data.length 2048)) := by
  conv_lhs => unfold specChunks
  rw [dif_neg h]

theorem chunkLoop_nil (oracle : Ctrl → Int) (addr : Nat) :
    chunkLoop oracle addr [] = .ok [] := by
  unfold chunkLoop
  rw [dif_pos rfl]

theorem chunkLoop_cons (oracle : Ctrl → Int) (addr : Nat) (data : List Nat) (h : data ≠ []) :
    chunkLoop oracle addr data
      = (if oracle ⟨addr % 65536, addr / 65536, data.take (min data.length 2048),
            min data.length 2048⟩ < 0 then .error .usbError
         else if oracle ⟨addr % 65536, addr / 65536, data.take (min data.length 2048),
            min data.length 2048⟩ ≠ ((min data.length 2048 : Nat) : Int) then
           .error .shortWrite
         else
           match chunkLoop oracle addr (data.drop (min data.length 2048)) with
           | .error e => .error e
           | .ok ts => .ok (⟨addr % 65536, addr / 65536, data.take (min data.length 2048),
               min data.length 2048⟩ :: ts)) := by
  conv_lhs => unfold chunkLoop
  rw [dif_neg h]

/-- Every chunk of a section carries the 16-bit split of the section
address, at most 2048 bytes, a payload of exactly `wLength` bytes, and
at least one byte. -/
theorem specChunks_mem (addr : Nat) :
    ∀ (data : List Nat) (t : Ctrl), t ∈ specChunks addr data →
      t.wValue = addr % 65536 ∧ t.wIndex = addr / 65536 ∧ t.wLength ≤ 2048
      ∧ 1 ≤ t.wLength ∧ t.data.length = t.wLength := by
  have key : ∀ (n : Nat) (data : List Nat), data.length ≤ n → ∀ (t : Ctrl),
      t ∈ specChunks addr data →
      t.wValue = addr % 65536 ∧ t.wIndex = addr / 65536 ∧ t.wLength ≤ 2048
      ∧ 1 ≤ t.wLength ∧ t.data.length = t.wLength := by
    intro n
    induction n with
    | zero =>
      intro data hlen t ht
      have : data = [] := List.length_eq_zero.1 (by omega)
      subst this
      rw [specChunks_nil] at ht
      exact absurd ht (by simp)
    | succ m ih =>
      intro data hlen t ht
      by_cases hd : data = []
      · subst hd
        rw [specChunks_nil] at ht
        exact absurd ht (by simp)
      · have hpos := List.length_pos.2 hd
        rw [specChunks_cons addr data hd] at ht
        rcases List.mem_cons.1 ht with rfl | htl
        · refine ⟨rfl, rfl, ?_, ?_, ?_⟩
          · show min data.length 2048 ≤ 2048
            omega
          · show 1 ≤ min data.length 2048
            omega
          · show (data.take (min data.length 2048)).length = min data.length 2048
            simp only [List.length_take]
            omega
        · exact ih (data.drop (min data.length 2048))
            (by simp only [List.length_drop]; omega) t htl
  intro data
  exact key data.length data le_rfl

/-- The chunks of a section payload concatenate back to the payload. -/
theorem specChunks_join (addr : Nat) :
    ∀ (data : List Nat), joinData (specChunks addr data) = data := by
  have key : ∀ (n : Nat) (data : List Nat), data.length ≤ n →
      joinData (specChunks addr data) = data := by
    intro n
    induction n with
    | zero =>
      intro data hlen
      have : data = [] := List.length_eq_zero.1 (by omega)
      subst this
      rw [specChunks_nil]
      rfl
    | succ m ih =>
      intro data hlen
      by_cases hd : data = []
      · subst hd
        rw [specChunks_nil]
        rfl
      · have hpos := List.length_pos.2 hd
        rw [specChunks_cons addr data hd]
        show data.take (min data.length 2048)
            ++ joinData (specChunks addr (data.drop (min data.length 2048))) = data
        rw [ih (data.drop (min data.length 2048)) (by simp only [List.length_drop]; omega)]
        exact List.take_append_drop _ data
  intro data
  exact key data.length data le_rfl

/-- With the oracle returning exactly the requested length for every
chunk of the payload, the chunk loop succeeds and issues exactly the
specified chunk sequence. -/
theorem chunkLoop_exact (oracle : Ctrl → Int) (addr : Nat) :
    ∀ (data : List Nat), (∀ t ∈ specChunks addr data, oracle t = (t.wLength : Int)) →
      chunkLoop oracle addr data = .ok (specChunks addr data) := by
  have key : ∀ (n : Nat) (data : List Nat), data.length ≤ n →
      (∀ t ∈ specChunks addr data, oracle t = (t.wLength : Int)) →
      chunkLoop oracle addr data = .ok (specChunks addr data) := by
    intro n
    induction n with
    | zero =>
      intro data hlen _
      have hnil : data = [] := List.length_eq_zero.1 (by omega)
      subst hnil
      rw [chunkLoop_nil, specChunks_nil]
    | succ m ih =>
      intro data hlen hor
      by_cases hd : data = []
      · subst hd
        rw [chunkLoop_nil, specChunks_nil]
      · have hpos := List.length_pos.2 hd
        have hmem : (⟨addr % 65536, addr / 65536, data.take (min data.length 2048),
            min data.length 2048⟩ : Ctrl) ∈ specChunks addr data := by
          rw [specChunks_cons addr data hd]
          exact List.mem_cons_self _ _
        have h0 := hor _ hmem
        rw [chunkLoop_cons oracle addr data hd]
        rw [if_neg (by
          rw [h0]
          show ¬ ((min data.length 2048 : Nat) : Int) < 0
          omega)]
        rw [if_neg (by
          intro hcontra
          exact hcontra h0)]
        rw [ih (data.drop (min data.length 2048))
          (by simp only [List.length_drop]; omega)
          (fun t ht => hor t (by
            rw [specChunks_cons addr data hd]
            exact List.mem_cons_of_mem _ ht))]
        conv_rhs => rw [specChunks_cons addr data hd]
  intro data
  exact key data.length data le_rfl

/-- With a non-negative oracle that under-delivers on some chunk of the
payload, the chunk loop fails with the short-write error. -/
theorem chunkLoop_short (oracle : Ctrl → Int) (addr : Nat) :
    ∀ (data : List Nat), (∀ t ∈ specChunks addr data, 0 ≤ oracle t) →
      (∃ t ∈ specChunks addr data, oracle t ≠ (t.wLength : Int)) →
      chunkLoop oracle addr data = .error .shortWrite := by
  have key : ∀ (n : Nat) (data : List Nat), data.length ≤ n →
      (∀ t ∈ specChunks addr data, 0 ≤ oracle t) →
      (∃ t ∈ specChunks addr data, oracle t ≠ (t.wLength : Int)) →
      chunkLoop oracle addr data = .error .shortWrite := by
    intro n
    induction n with
    | zero =>
      intro data hlen _ hex
      have hnil : data = [] := List.length_eq_zero.1 (by omega)
      subst hnil
      rw [specChunks_nil] at hex
      exact absurd hex (by simp)
    | succ m ih =>
      intro data hlen hnn hex
      by_cases hd : data = []
      · subst hd
        rw [specChunks_nil] at hex
        exact absurd hex (by simp)
      · have hpos := List.length_pos.2 hd
        have hmem : (⟨addr % 65536, addr / 65536, data.take (min data.length 2048),
            min data.length 2048⟩ : Ctrl) ∈ specChunks addr data := by
          rw [specChunks_cons addr data hd]
          exact List.mem_cons_self _ _
        have hnn0 := hnn _ hmem
        rw [chunkLoop_cons oracle addr data hd]
        rw [if_neg (by omega)]
        by_cases hx : oracle ⟨addr % 65536, addr / 65536, data.take (min data.length 2048),
            min data.length 2048⟩ = ((min data.length 2048 : Nat) : Int)
        · rw [if_neg (not_not_intro hx)]
          rcases hex with ⟨t, htmem, htneq⟩
          rw [specChunks_cons addr data hd] at htmem
          rcases List.mem_cons.1 htmem with rfl | htl
          · exact absurd hx htneq
          · rw [ih (data.drop (min data.length 2048))
              (by simp only [List.length_drop]; omega)
              (fun t ht => hnn t (by
                rw [specChunks_cons addr data hd]
                exact List.mem_cons_of_mem _ ht))
              ⟨t, htl, htneq⟩]
        · rw [if_pos hx]
  intro data
  exact key data.length data le_rfl

/-- Bounds carried by every chunk record of a section list. -/
theorem chunksOfSections_mem :
    ∀ (secs : List (Nat × List Nat)) (t : Ctrl), t ∈ chunksOfSections secs →
      1 ≤ t.wLength ∧ t.wLength ≤ 2048 ∧ t.data.length = t.wLength := by
  intro secs
  induction secs with
  | nil =>
    intro t ht
    exact absurd ht (by simp [chunksOfSections])
  | cons s ss ih =>
    intro t ht
    rcases List.mem_append.1 (by simpa [chunksOfSections] using ht) with h1 | h2
    · have hprops := specChunks_mem s.1 (encWords s.2) t h1
      exact ⟨hprops.2.2.2.1, hprops.2.2.1, hprops.2.2.2.2⟩
    · exact ih t h2

/-- The section walk reaching the terminating zero word. -/
theorem transferWalk_term (oracle : Ctrl → Int) (A rest : List Nat) (fuel : Nat) :
    transferWalk (A ++ (le32 0 ++ rest)) oracle (fuel + 1) A.length = .ok (A.length + 4, []) := by
  have hw := wordAt_append A rest 0
  rw [Nat.zero_mod] at hw
  simp only [transferWalk, hw]
  simp

/-- Walking an encoded section list with an oracle that delivers every
section chunk in full emits exactly the specified chunk sequence and
advances to the end of the encoded sections, consuming one unit of fuel
per section. -/
theorem transferWalk_append (oracle : Ctrl → Int) :
    ∀ (secs : List (Nat × List Nat)) (A rest : List Nat) (fuel : Nat),
      (∀ s ∈ secs, s.2 ≠ [] ∧ s.2.length < 4294967296 ∧ s.1 < 4294967296) →
      secs.length ≤ fuel →
      (∀ t ∈ chunksOfSections secs, oracle t = (t.wLength : Int)) →
      transferWalk (A ++ (encSections secs ++ rest)) oracle fuel A.length
        = (transferWalk (A ++ (encSections secs ++ rest)) oracle (fuel - secs.length)
            (A.length + (encSections secs).length)).map
            (fun pr => (pr.1, chunksOfSections secs ++ pr.2)) := by
  intro secs
  induction secs with
  | nil =>
    intro A rest fuel _ _ _
    have hid : ∀ (x : Except TransferError (Nat × List Ctrl)),
        x.map (fun pr => (pr.1, chunksOfSections [] ++ pr.2)) = x := by
      intro x
      cases x <;> simp [Except.map, chunksOfSections]
    rw [hid]
    simp [encSections]
  | cons s ss ih =>
    intro A rest fuel hs hf hor
    obtain ⟨st, d⟩ := s
    have hd : d ≠ [] := (hs (st, d) (by simp)).1
    have hdlen : d.length < 4294967296 := (hs (st, d) (by simp)).2.1
    have hstlt : st < 4294967296 := (hs (st, d) (by simp)).2.2
    cases fuel with
    | zero => simp at hf
    | succ f =>
      have hassoc : A ++ (encSections ((st, d) :: ss) ++ rest)
          = A ++ (le32 d.length ++ (le32 st ++ (encWords d ++ (encSections ss ++ rest)))) := by
        simp [encSections, encSection, List.append_assoc]
      rw [hassoc]
      have hload : wordAt (A ++ (le32 d.length ++ (le32 st ++ (encWords d ++ (encSections ss ++ rest))))) A.length
          = some d.length := by
        rw [wordAt_append, Nat.mod_eq_of_lt hdlen]
      have h2 : A ++ (le32 d.length ++ (le32 st ++ (encWords d ++ (encSections ss ++ rest))))
          = (A ++ le32 d.length) ++ (le32 st ++ (encWords d ++ (encSections ss ++ rest))) := by
        simp [List.append_assoc]
      have haddr : wordAt (A ++ (le32 d.length ++ (le32 st ++ (encWords d ++ (encSections ss ++ rest))))) (A.length + 4)
          = some st := by
        rw [h2]
        have hx := wordAt_append (A ++ le32 d.length) (encWords d ++ (encSections ss ++ rest)) st
        rw [Nat.mod_eq_of_lt hstlt] at hx
        simpa using hx
      have hdne : ¬ (d.length = 0) := by
        simpa [List.length_eq_zero] using hd
      have hlentot : (A ++ (le32 d.length ++ (le32 st ++ (encWords d ++ (encSections ss ++ rest))))).length
          = A.length + (4 + (4 + (4 * d.length + ((encSections ss).length + rest.length)))) := by
        simp
      have hcheck : ¬ ((A ++ (le32 d.length ++ (le32 st ++ (encWords d ++ (encSections ss ++ rest))))).length
          < A.length + 8 + 4 * d.length) := by
        rw [hlentot]; omega
      have h3 : A ++ (le32 d.length ++ (le32 st ++ (encWords d ++ (encSections ss ++ rest))))
          = ((A ++ le32 d.length) ++ le32 st) ++ (encWords d ++ (encSections ss ++ rest)) := by
        simp [List.append_assoc]
      have hslice : ((A ++ (le32 d.length ++ (le32 st ++ (encWords d ++ (encSections ss ++ rest))))).drop (A.length + 8)).take (4 * d.length)
          = encWords d := by
        rw [h3]
        have hlenpre : ((A ++ le32 d.length) ++ le32 st).length = A.length + 8 := by
          simp
        rw [← hlenpre, List.drop_left]
        rw [← encWords_length d]
        exact List.take_left _ _
      have hchunk : chunkLoop oracle st (encWords d) = .ok (specChunks st (encWords d)) :=
        chunkLoop_exact oracle st (encWords d) (fun t ht => hor t (by
          show t ∈ chunksOfSections ((st, d) :: ss)
          simp only [chunksOfSections]
          exact List.mem_append.2 (Or.inl ht)))
      have hstep : transferWalk (A ++ (le32 d.length ++ (le32 st ++ (encWords d ++ (encSections ss ++ rest))))) oracle (f + 1) A.length
          = (transferWalk (A ++ (le32 d.length ++ (le32 st ++ (encWords d ++ (encSections ss ++ rest))))) oracle f (A.length + 8 + 4 * d.length)).map
              (fun pr => (pr.1, specChunks st (encWords d) ++ pr.2)) := by
        simp only [transferWalk, hload, haddr]
        rw [if_neg hdne, if_neg hcheck, hslice, hchunk]
        cases hx : transferWalk (A ++ (le32 d.length ++ (le32 st ++ (encWords d ++ (encSections ss ++ rest))))) oracle f (A.length + 8 + 4 * d.length) with
        | error e => simp [Except.map]
        | ok pr => obtain ⟨p, ts2⟩ := pr; simp [Except.map]
      rw [hstep]
      have hlen4 : A.length + 8 + 4 * d.length = (A ++ encSection (st, d)).length := by
        simp; omega
      have h4 : A ++ (le32 d.length ++ (le32 st ++ (encWords d ++ (encSections ss ++ rest))))
          = (A ++ encSection (st, d)) ++ (encSections ss ++ rest) := by
        simp [encSection, List.append_assoc]
      rw [hlen4, h4]
      rw [ih (A ++ encSection (st, d)) rest f
        (fun t ht => hs t (by simp [ht]))
        (by simp at hf; omega)
        (fun t ht => hor t (by
          show t ∈ chunksOfSections ((st, d) :: ss)
          simp only [chunksOfSections]
          exact List.mem_append.2 (Or.inr ht)))]
      have e1 : f + 1 - ((st, d) :: ss).length = f - ss.length := by simp
      have e2 : (A ++ encSection (st, d)).length + (encSections ss).length
          = A.length + (encSections ((st, d) :: ss)).length := by
        simp [encSections]; omega
      rw [e1, e2]
      cases hx : transferWalk ((A ++ encSection (st, d)) ++ (encSections ss ++ rest)) oracle
          (f - ss.length) (A.length + (encSections ((st, d) :: ss)).length) with
      | error e => simp [Except.map]
      | ok pr =>
        obtain ⟨p, ts2⟩ := pr
        simp [Except.map, chunksOfSections, List.append_assoc]

/-- Walking an encoded section list with a non-negative oracle that
under-delivers on some section chunk fails with the short-write
error. -/
theorem transferWalk_short (oracle : Ctrl → Int) :
    ∀ (secs : List (Nat × List Nat)) (A rest : List Nat) (fuel : Nat),
      (∀ s ∈ secs, s.2 ≠ [] ∧ s.2.length < 4294967296 ∧ s.1 < 4294967296) →
      secs.length ≤ fuel →
      (∀ t ∈ chunksOfSections secs, 0 ≤ oracle t) →
      (∃ t ∈ chunksOfSections secs, oracle t ≠ (t.wLength : Int)) →
      transferWalk (A ++ (encSections secs ++ rest)) oracle fuel A.length
        = .error .shortWrite := by
  intro secs
  induction secs with
  | nil =>
    intro A rest fuel _ _ _ hex
    exact absurd hex (by simp [chunksOfSections])
  | cons s ss ih =>
    intro A rest fuel hs hf hnn hex
    obtain ⟨st, d⟩ := s
    have hd : d ≠ [] := (hs (st, d) (by simp)).1
    have hdlen : d.length < 4294967296 := (hs (st, d) (by simp)).2.1
    have hstlt : st < 4294967296 := (hs (st, d) (by simp)).2.2
    cases fuel with
    | zero => simp at hf
    | succ f =>
      have hassoc : A ++ (encSections ((st, d) :: ss) ++ rest)
          = A ++ (le32 d.length ++ (le32 st ++ (encWords d ++ (encSections ss ++ rest)))) := by
        simp [encSections, encSection, List.append_assoc]
      rw [hassoc]
      have hload : wordAt (A ++ (le32 d.length ++ (le32 st ++ (encWords d ++ (encSections ss ++ rest))))) A.length
          = some d.length := by
        rw [wordAt_append, Nat.mod_eq_of_lt hdlen]
      have h2 : A ++ (le32 d.length ++ (le32 st ++ (encWords d ++ (encSections ss ++ rest))))
          = (A ++ le32 d.length) ++ (le32 st ++ (encWords d ++ (encSections ss ++ rest))) := by
        simp [List.append_assoc]
      have haddr : wordAt (A ++ (le32 d.length ++ (le32 st ++ (encWords d ++ (encSections ss ++ rest))))) (A.length + 4)
          = some st := by
        rw [h2]
        have hx := wordAt_append (A ++ le32 d.length) (encWords d ++ (encSections ss ++ rest)) st
        rw [Nat.mod_eq_of_lt hstlt] at hx
        simpa using hx
      have hdne : ¬ (d.length = 0) := by
        simpa [List.length_eq_zero] using hd
      have hlentot : (A ++ (le32 d.length ++ (le32 st ++ (encWords d ++ (encSections ss ++ rest))))).length
          = A.length + (4 + (4 + (4 * d.length + ((encSections ss).length + rest.length)))) := by
        simp
      have hcheck : ¬ ((A ++ (le32 d.length ++ (le32 st ++ (encWords d ++ (encSections ss ++ rest))))).length
          < A.length + 8 + 4 * d.length) := by
        rw [hlentot]; omega
      have h3 : A ++ (le32 d.length ++ (le32 st ++ (encWords d ++ (encSections ss ++ rest))))
          = ((A ++ le32 d.length) ++ le32 st) ++ (encWords d ++ (encSections ss ++ rest)) := by
        simp [List.append_assoc]
      have hslice : ((A ++ (le32 d.length ++ (le32 st ++ (encWords d ++ (encSections ss ++ rest))))).drop (A.length + 8)).take (4 * d.length)
          = encWords d := by
        rw [h3]
        have hlenpre : ((A ++ le32 d.length) ++ le32 st).length = A.length + 8 := by
          simp
        rw [← hlenpre, List.drop_left]
        rw [← encWords_length d]
        exact List.take_left _ _
      by_cases hall : ∀ t ∈ specChunks st (encWords d), oracle t = (t.wLength : Int)
      · have hchunk : chunkLoop oracle st (encWords d) = .ok (specChunks st (encWords d)) :=
          chunkLoop_exact oracle st (encWords d) hall
        have hex2 : ∃ t ∈ chunksOfSections ss, oracle t ≠ (t.wLength : Int) := by
          rcases hex with ⟨t, htmem, htneq⟩
          rcases List.mem_append.1 (by simpa [chunksOfSections] using htmem) with h1 | h1
          · exact absurd (hall t h1) htneq
          · exact ⟨t, h1, htneq⟩
        simp only [transferWalk, hload, haddr]
        rw [if_neg hdne, if_neg hcheck, hslice, hchunk]
        have hlen4 : A.length + 8 + 4 * d.length = (A ++ encSection (st, d)).length := by
          simp; omega
        have h4 : A ++ (le32 d.length ++ (le32 st ++ (encWords d ++ (encSections ss ++ rest))))
            = (A ++ encSection (st, d)) ++ (encSections ss ++ rest) := by
          simp [encSection, List.append_assoc]
        rw [hlen4, h4]
        rw [ih (A ++ encSection (st, d)) rest f
          (fun t ht => hs t (by simp [ht]))
          (by simp at hf; omega)
          (fun t ht => hnn t (by
            show t ∈ chunksOfSections ((st, d) :: ss)
            simp only [chunksOfSections]
            exact List.mem_append.2 (Or.inr ht)))
          hex2]
      · have hshort := chunkLoop_short oracle st (encWords d)
          (fun t ht => hnn t (by
            show t ∈ chunksOfSections ((st, d) :: ss)
            simp only [chunksOfSections]
            exact List.mem_append.2 (Or.inl ht)))
          (by push_neg at hall; exact hall)
        simp only [transferWalk, hload, haddr]
        rw [if_neg hdne, if_neg hcheck, hslice, hshort]

/-- On a structurally well-formed image, `transfer_image` with an
oracle delivering every section chunk in full succeeds and issues
exactly the specified control-transfer sequence, regardless of the
outcome of the final zero-length transfer. -/
theorem transfer_image_mk_exact (secs : List (Nat × List Nat)) (e c : Nat) (pad : List Nat)
    (hs : ∀ s ∈ secs, s.2 ≠ [] ∧ s.2.length < 4294967296 ∧ s.1 < 4294967296)
    (he : e < 4294967296) (oracle : Ctrl → Int)
    (hor : ∀ t ∈ chunksOfSections secs, oracle t = (t.wLength : Int)) :
    transfer_image (mkImage secs e c pad) oracle = .ok (specTransferSequence secs e) := by
  have hml := mkImage_length secs e c pad
  have henc := encSections_length_ge secs (fun s hsm => (hs s hsm).1)
  have hwalk1 := transferWalk_append oracle secs fwHeader
    (le32 0 ++ (le32 e ++ (le32 c ++ pad))) (mkImage secs e c pad).length hs (by omega) hor
  have heq : fwHeader ++ (encSections secs ++ (le32 0 ++ (le32 e ++ (le32 c ++ pad))))
      = mkImage secs e c pad := rfl
  rw [heq] at hwalk1
  have hfhl : fwHeader.length = 4 := rfl
  rw [hfhl] at hwalk1
  obtain ⟨k, hk⟩ : ∃ k, (mkImage secs e c pad).length - secs.length = k + 1 :=
    ⟨(mkImage secs e c pad).length - secs.length - 1, by omega⟩
  have hterm := transferWalk_term oracle (fwHeader ++ encSections secs)
    (le32 e ++ (le32 c ++ pad)) k
  have hshape : (fwHeader ++ encSections secs) ++ (le32 0 ++ (le32 e ++ (le32 c ++ pad)))
      = mkImage secs e c pad := by
    simp [mkImage, List.append_assoc]
  rw [hshape] at hterm
  have hlenA : (fwHeader ++ encSections secs).length = 4 + (encSections secs).length := by
    simp [fwHeader]; omega
  rw [hlenA, ← hk] at hterm
  have hentry := wordAt_append ((fwHeader ++ encSections secs) ++ le32 0) (le32 c ++ pad) e
  have hshape2 : ((fwHeader ++ encSections secs) ++ le32 0) ++ (le32 e ++ (le32 c ++ pad))
      = mkImage secs e c pad := by
    simp [mkImage, List.append_assoc]
  rw [hshape2] at hentry
  have hpos2 : ((fwHeader ++ encSections secs) ++ le32 0).length
      = 4 + (encSections secs).length + 4 := by
    simp [fwHeader]; omega
  rw [hpos2, Nat.mod_eq_of_lt he] at hentry
  have hchk := wordAt_append (((fwHeader ++ encSections secs) ++ le32 0) ++ le32 e) pad c
  have hshape3 : (((fwHeader ++ encSections secs) ++ le32 0) ++ le32 e) ++ (le32 c ++ pad)
      = mkImage secs e c pad := by
    simp [mkImage, List.append_assoc]
  rw [hshape3] at hchk
  have hpos3 : (((fwHeader ++ encSections secs) ++ le32 0) ++ le32 e).length
      = 4 + (encSections secs).length + 4 + 4 := by
    simp [fwHeader]; omega
  rw [hpos3] at hchk
  unfold transfer_image
  rw [hwalk1, hterm]
  simp only [Except.map]
  rw [hentry, hchk]
  simp [specTransferSequence]

/-- C7: for every structurally well-formed image, `transfer_image` with
full-delivery outcomes emits exactly the specified sequence — per
section, chunks of at most 2048 bytes whose payloads concatenate to the
section data, each addressed by wValue = low 16 bits and wIndex = high
16 bits of the section start address, followed by one final zero-length
transfer addressed at the entry point — and with non-negative outcomes
it fails with the short-write error exactly when some chunk transfers
fewer bytes than requested. -/
theorem transfer_image_control_sequence (secs : List (Nat × List Nat)) (e c : Nat)
    (pad : List Nat)
    (hs : ∀ s ∈ secs, s.2 ≠ [] ∧ s.2.length < 4294967296 ∧ s.1 < 4294967296)
    (he : e < 4294967296) :
    (∀ oracle : Ctrl → Int, (∀ t, oracle t = (t.wLength : Int)) →
      transfer_image (mkImage secs e c pad) oracle = .ok (specTransferSequence secs e))
    ∧ (∀ t ∈ specTransferSequence secs e, t.wLength ≤ 2048 ∧ t.data.length = t.wLength)
    ∧ (∀ s ∈ secs, (∀ t ∈ specChunks s.1 (encWords s.2),
        t.wValue = s.1 % 65536 ∧ t.wIndex = s.1 / 65536)
        ∧ joinData (specChunks s.1 (encWords s.2)) = encWords s.2)
    ∧ (∀ oracle : Ctrl → Int, (∀ t ∈ chunksOfSections secs, 0 ≤ oracle t) →
        (transfer_image (mkImage secs e c pad) oracle = .error .shortWrite
          ↔ ∃ t ∈ chunksOfSections secs, oracle t ≠ (t.wLength : Int))) := by
  refine ⟨?_, ?_, ?_, ?_⟩
  · intro oracle hor
    exact transfer_image_mk_exact secs e c pad hs he oracle (fun t _ => hor t)
  · intro t ht
    rcases List.mem_append.1 ht with h1 | h2
    · have hprops := chunksOfSections_mem secs t h1
      exact ⟨hprops.2.1, hprops.2.2⟩
    · have : t = ⟨e % 65536, e / 65536, [], 0⟩ := by simpa using h2
      subst this
      exact ⟨by norm_num, rfl⟩
  · intro s _
    refine ⟨fun t ht => ?_, specChunks_join s.1 (encWords s.2)⟩
    have hprops := specChunks_mem s.1 (encWords s.2) t ht
    exact ⟨hprops.1, hprops.2.1⟩
  · intro oracle hnn
    constructor
    · intro hres
      by_cases hall : ∀ t ∈ chunksOfSections secs, oracle t = (t.wLength : Int)
      · exfalso
        have hok := transfer_image_mk_exact secs e c pad hs he oracle hall
        rw [hok] at hres
        exact absurd hres (by simp)
      · push_neg at hall
        exact hall
    · intro hex
      have hml := mkImage_length secs e c pad
      have henc := encSections_length_ge secs (fun s hsm => (hs s hsm).1)
      have hshort := transferWalk_short oracle secs fwHeader
        (le32 0 ++ (le32 e ++ (le32 c ++ pad))) (mkImage secs e c pad).length
        hs (by omega) hnn hex
      have heq : fwHeader ++ (encSections secs ++ (le32 0 ++ (le32 e ++ (le32 c ++ pad))))
          = mkImage secs e c pad := rfl
      rw [heq] at hshort
      have hfhl : fwHeader.length = 4 := rfl
      rw [hfhl] at hshort
      unfold transfer_image
      rw [hshort]

/-- Witness for C7: a two-word section at start address 0x10000 with a
full-delivery oracle produces exactly the specified sequence. -/
theorem transfer_image_control_sequence_witness :
    transfer_image (mkImage [(65536, [1, 2])] 32 3 []) (fun t => (t.wLength : Int))
      = .ok (specTransferSequence [(65536, [1, 2])] 32) :=
  (transfer_image_control_sequence [(65536, [1, 2])] 32 3 []
    (by decide) (by decide)).1 (fun t => (t.wLength : Int)) (fun _ => rfl)

/-- C8: the final jump-to-entry-point transfer's failure is never
propagated — for every structurally well-formed image and every oracle
that delivers each section chunk (every transfer of nonzero length) in
full, `transfer_image` returns success whatever the oracle returns for
the final zero-length transfer. -/
theorem transfer_image_final_failure_nonfatal (secs : List (Nat × List Nat)) (e c : Nat)
    (pad : List Nat)
    (hs : ∀ s ∈ secs, s.2 ≠ [] ∧ s.2.length < 4294967296 ∧ s.1 < 4294967296)
    (he : e < 4294967296) (oracle : Ctrl → Int)
    (hor : ∀ t : Ctrl, t.wLength ≠ 0 → oracle t = (t.wLength : Int)) :
    transfer_image (mkImage secs e c pad) oracle = .ok (specTransferSequence secs e) :=
  transfer_image_mk_exact secs e c pad hs he oracle
    (fun t ht => hor t (by
      have := chunksOfSections_mem secs t ht
      omega))

/-- Witness for C8: the oracle fails (-1) on every zero-length transfer
— in particular the final jump — yet the transfer reports success. -/
theorem transfer_image_final_failure_nonfatal_witness :
    transfer_image (mkImage [(0, [5])] 16 5 [])
        (fun t => if t.wLength = 0 then (-1 : Int) else (t.wLength : Int))
      = .ok (specTransferSequence [(0, [5])] 16) :=
  transfer_image_final_failure_nonfatal [(0, [5])] 16 5 []
    (by decide) (by decide)
    (fun t => if t.wLength = 0 then (-1 : Int) else (t.wLength : Int))
    (fun t ht => by simp [ht])

end RF103
